import Mathlib

/-!
# Verification of `mime.go` (package `mime`)

A shallow embedding of the magic-number content sniffer:
the `MIME` enumeration and its `String` method, the two signature kinds
(`exactSig`, `offsetSig`) with their `match` methods, the table
`sniffSignatures`, and the entry point `Detect`.

Modelling conventions.

* A Go `[]byte` is a `List UInt8`; the `nil` slice and the empty slice are both `[]`.
* Go's `int` is modelled as a mathematical integer together with `wrapInt`, the
  two's-complement wrap-around of 64-bit `int` arithmetic, applied at the one
  place where the source adds two `int`s.
* A Go slice expression can panic at run time.  The two slice expressions of
  the source are embedded as the fallible operations `sliceTo` and `sliceFrom`
  returning `Option`; `none` stands for the run-time panic.  Consequently
  `offsetSig.match`, `sniffSig.match` and `Detect` return `Option MIME`.
-/

namespace Mime

/-! ## Machine integers and slices -/

/-- Width of Go's `int` on the 64-bit platforms. -/
def intBits : Nat := 64

/-- Two's-complement wrap-around of a mathematical integer into the range of `int`. -/
def wrapInt (x : Int) : Int :=
  (x + 2 ^ (intBits - 1)) % 2 ^ intBits - 2 ^ (intBits - 1)

/-- Go's builtin `len` on a slice, as an `int`. -/
def len (s : List UInt8) : Int := (s.length : Int)

/-- The slice expression `s[:hi]`.  It panics (`none`) unless `0 ≤ hi ≤ cap(s)`;
a list carries no spare capacity, so the capacity is taken to be the length
(being in bounds here implies being in bounds in Go, where `len(s) ≤ cap(s)`). -/
def sliceTo (s : List UInt8) (hi : Int) : Option (List UInt8) :=
  if 0 ≤ hi ∧ hi ≤ len s then some (s.take hi.toNat) else none

/-- The slice expression `s[lo:]`.  It panics (`none`) unless `0 ≤ lo ≤ len(s)`. -/
def sliceFrom (s : List UInt8) (lo : Int) : Option (List UInt8) :=
  if 0 ≤ lo ∧ lo ≤ len s then some (s.drop lo.toNat) else none

/-- Go's `bytes.Equal`. -/
def bytesEqual (a b : List UInt8) : Bool := a == b

/-- Go's `bytes.HasPrefix`, whose body in the standard library is
`len(s) >= len(prefix) && Equal(s[0:len(prefix)], prefix)`.
The slice `s[0:len(prefix)]` is only evaluated once the length test has
succeeded, so it is always in bounds. -/
def HasPrefix (s pfx : List UInt8) : Bool :=
  decide (len s ≥ len pfx) && bytesEqual (s.take pfx.length) pfx

/-! ## The `MIME` type -/

/-- The source's `const sniffLen = 512`. -/
def sniffLen : Int := 512

/-- The source's `type MIME int`. -/
structure MIME where
  /-- The underlying `int`. -/
  val : Int
  deriving DecidableEq, Repr

/-- `Unknown MIME = iota`, that is 0. -/
def Unknown : MIME := ⟨0⟩
/-- Constant 1 of the `iota` block. -/
def Zip : MIME := ⟨1⟩
/-- Constant 2 of the `iota` block. -/
def Rar : MIME := ⟨2⟩
/-- Constant 3 of the `iota` block. -/
def Gzip : MIME := ⟨3⟩
/-- Constant 4 of the `iota` block. -/
def Bzip : MIME := ⟨4⟩
/-- Constant 5 of the `iota` block. -/
def Bzip2 : MIME := ⟨5⟩
/-- Constant 6 of the `iota` block. -/
def Tar : MIME := ⟨6⟩
/-- Constant 7 of the `iota` block. -/
def PDF : MIME := ⟨7⟩
/-- Constant 8 of the `iota` block. -/
def Xz : MIME := ⟨8⟩
/-- Constant 9 of the `iota` block. -/
def Lz4 : MIME := ⟨9⟩
/-- Constant 10 of the `iota` block (the commented-out `Sz` line declares nothing). -/
def OctetStream : MIME := ⟨10⟩

/-- The method `func (m MIME) String() string`: a `switch` over ten constants
with the empty string after the `switch`. -/
def MIME.String (m : MIME) : String :=
  if m = Zip then "application/zip"
  else if m = Rar then "application/x-rar"
  else if m = Gzip then "application/x-gzip"
  else if m = Bzip then "application/x-bzip"
  else if m = Bzip2 then "application/x-bzip2"
  else if m = Tar then "application/x-tar"
  else if m = PDF then "application/pdf"
  else if m = Xz then "application/x-xz"
  else if m = Lz4 then "application/x-lz4"
  else if m = OctetStream then "application/octet-stream"
  else ""

/-! ## Signatures -/

/-- The source's `type exactSig struct { sig []byte; mt MIME }`. -/
structure exactSig where
  /-- The pattern. -/
  sig : List UInt8
  /-- The result. -/
  mt : MIME
  deriving DecidableEq, Repr

/-- The source's `type offsetSig struct { sig []byte; offset int; mt MIME }`. -/
structure offsetSig where
  /-- The pattern. -/
  sig : List UInt8
  /-- The position at which the pattern is looked for. -/
  offset : Int
  /-- The result. -/
  mt : MIME
  deriving DecidableEq, Repr

/-- The method `func (e *exactSig) match(data []byte) MIME`. -/
def exactSig.«match» (e : exactSig) (data : List UInt8) : MIME :=
  if HasPrefix data e.sig then e.mt else Unknown

/-- The method `func (o *offsetSig) match(data []byte) MIME`.
The sum `o.offset+len(o.sig)` is an `int` addition and wraps around;
`data[o.offset:]` is a fallible slice expression. -/
def offsetSig.«match» (o : offsetSig) (data : List UInt8) : Option MIME :=
  if len data < wrapInt (o.offset + len o.sig) then some Unknown
  else
    match sliceFrom data o.offset with
    | none => none
    | some rest => if HasPrefix rest o.sig then some o.mt else some Unknown

/-- The interface `sniffSig`, implemented in the source by `*exactSig` and
`*offsetSig` only. -/
inductive sniffSig where
  | ofExact (e : exactSig)
  | ofOffset (o : offsetSig)
  deriving DecidableEq, Repr

/-- Dynamic dispatch of the interface method `match`. -/
def sniffSig.«match» (s : sniffSig) (data : List UInt8) : Option MIME :=
  match s with
  | .ofExact e => some (e.«match» data)
  | .ofOffset o => o.«match» data

/-- The table `sniffSignatures`, in source order. -/
def sniffSignatures : List sniffSig :=
  [ .ofExact ⟨[0x25, 0x50, 0x44, 0x46, 0x2D], PDF⟩,
    .ofExact ⟨[0x52, 0x61, 0x72, 0x21, 0x1A, 0x07, 0x00], Rar⟩,
    .ofExact ⟨[0x52, 0x61, 0x72, 0x21, 0x1A, 0x07, 0x01, 0x00], Rar⟩,
    .ofExact ⟨[0x50, 0x4B, 0x03, 0x04], Zip⟩,
    .ofExact ⟨[0x1F, 0x8B, 0x08], Gzip⟩,
    .ofExact ⟨[0x42, 0x5A, 0x68], Bzip2⟩,
    .ofExact ⟨[0x42, 0x5A, 0x30], Bzip⟩,
    .ofExact ⟨[0xFD, 0x37, 0x7A, 0x58, 0x5A, 0x00], Xz⟩,
    .ofExact ⟨[0x04, 0x22, 0x4D, 0x18], Lz4⟩,
    .ofOffset ⟨[0x75, 0x73, 0x74, 0x61, 0x72, 0x00, 0x30, 0x30], 257, Tar⟩,
    .ofOffset ⟨[0x75, 0x73, 0x74, 0x61, 0x72, 0x20, 0x20, 0x00], 257, Tar⟩ ]

/-! ## Detection -/

/-- The loop `for _, sig := range sigs { if mt := sig.match(data); mt != Unknown
{ return mt } }` of `Detect`, followed by `return OctetStream`. -/
def Detect.loop : List sniffSig → List UInt8 → Option MIME
  | [], _ => some OctetStream
  | sig :: rest, data =>
    match sig.«match» data with
    | none => none
    | some mt => if mt ≠ Unknown then some mt else Detect.loop rest data

/-- The truncation `if len(data) > sniffLen { data = data[:sniffLen] }` of `Detect`. -/
def Detect.window (data : List UInt8) : Option (List UInt8) :=
  if len data > sniffLen then sliceTo data sniffLen else some data

/-- The function `func Detect(data []byte) MIME`. -/
def Detect (data : List UInt8) : Option MIME :=
  match Detect.window data with
  | none => none
  | some w => Detect.loop sniffSignatures w

/-! ## Proof-side vocabulary -/

/-- The result field `mt` of a rule, whichever its kind. -/
def sniffSig.mt : sniffSig → MIME
  | .ofExact e => e.mt
  | .ofOffset o => o.mt

/-- A rule is in range when the `int` sum `offset+len(sig)` of an offset rule is
computed without wrap-around from a non-negative offset.  Prefix rules carry no
arithmetic and are always in range. -/
def sniffSig.inRange : sniffSig → Bool
  | .ofExact _ => true
  | .ofOffset o => decide (0 ≤ o.offset) && decide (o.offset + len o.sig < 2 ^ 63)

/-- The pattern field `sig` of a rule, whichever its kind. -/
def sniffSig.sig : sniffSig → List UInt8
  | .ofExact e => e.sig
  | .ofOffset o => o.sig

/-- The position at which a rule compares its pattern: the field `offset` of an
`offsetSig`, and 0 for an `exactSig`, whose `match` tests `bytes.HasPrefix(data, sig)`. -/
def sniffSig.offset : sniffSig → Int
  | .ofExact _ => 0
  | .ofOffset o => o.offset

/-- A rule hits `data` when its `match` returns a value that passes the test
`mt != Unknown` of the loop of `Detect`. -/
def sniffSig.hit (s : sniffSig) (data : List UInt8) : Bool :=
  match s.«match» data with
  | some mt => mt != Unknown
  | none => false

/-- The pattern of `s` lies inside `data` at the rule's position. -/
def sniffSig.fits (s : sniffSig) (data : List UInt8) : Prop :=
  s.offset + len s.sig ≤ len data ∧ s.sig <+: data.drop s.offset.toNat

instance (s : sniffSig) (data : List UInt8) : Decidable (s.fits data) :=
  inferInstanceAs (Decidable (_ ∧ _))

/-- Two rules of a table are compatible with their order when, compared at the same
position, neither pattern is a prefix of the other, and, compared at different
positions, the earlier rule needs no more bytes than the later one. -/
def sniffSig.ordered (t s : sniffSig) : Prop :=
  (t.offset = s.offset → ¬ (t.sig <+: s.sig ∨ s.sig <+: t.sig)) ∧
    (t.offset ≠ s.offset → t.offset + len t.sig ≤ s.offset + len s.sig)

instance (t s : sniffSig) : Decidable (t.ordered s) :=
  inferInstanceAs (Decidable (_ ∧ _))

/-- The signature table of the specification (section 4.1), row by row: kind
(`true` for a prefix rule, `false` for an offset rule), pattern, offset, result. -/
def specTable : List (Bool × List UInt8 × Int × MIME) :=
  [ (true, [0x25, 0x50, 0x44, 0x46, 0x2D], 0, PDF),
    (true, [0x52, 0x61, 0x72, 0x21, 0x1A, 0x07, 0x00], 0, Rar),
    (true, [0x52, 0x61, 0x72, 0x21, 0x1A, 0x07, 0x01, 0x00], 0, Rar),
    (true, [0x50, 0x4B, 0x03, 0x04], 0, Zip),
    (true, [0x1F, 0x8B, 0x08], 0, Gzip),
    (true, [0x42, 0x5A, 0x68], 0, Bzip2),
    (true, [0x42, 0x5A, 0x30], 0, Bzip),
    (true, [0xFD, 0x37, 0x7A, 0x58, 0x5A, 0x00], 0, Xz),
    (true, [0x04, 0x22, 0x4D, 0x18], 0, Lz4),
    (false, [0x75, 0x73, 0x74, 0x61, 0x72, 0x00, 0x30, 0x30], 257, Tar),
    (false, [0x75, 0x73, 0x74, 0x61, 0x72, 0x20, 0x20, 0x00], 257, Tar) ]

/-- The row of the specification's table that describes a rule of the source. -/
def sniffSig.row : sniffSig → Bool × List UInt8 × Int × MIME
  | .ofExact e => (true, e.sig, 0, e.mt)
  | .ofOffset o => (false, o.sig, o.offset, o.mt)

/-! ## Auxiliary lemmas -/

theorem wrapInt_eq_self {x : Int} (h0 : 0 ≤ x) (h1 : x < 2 ^ 63) : wrapInt x = x := by
  simp only [wrapInt, intBits] at *
  omega

theorem len_nonneg (s : List UInt8) : 0 ≤ len s := by
  simp [len]

theorem HasPrefix_iff (s p : List UInt8) : HasPrefix s p = true ↔ p <+: s := by
  simp only [HasPrefix, bytesEqual, len, Bool.and_eq_true, decide_eq_true_eq, beq_iff_eq]
  constructor
  · rintro ⟨-, h⟩
    exact h ▸ List.take_prefix _ _
  · intro h
    refine ⟨by exact_mod_cast h.length_le, ?_⟩
    exact List.prefix_iff_eq_take.mp h |>.symm

theorem prefix_iff_getElem? (s p : List UInt8) :
    p <+: s ↔ p.length ≤ s.length ∧ ∀ i, i < p.length → s[i]? = p[i]? := by
  constructor
  · rintro ⟨t, rfl⟩
    refine ⟨by simp, fun i hi => ?_⟩
    rw [List.getElem?_append_left hi]
  · rintro ⟨hl, h⟩
    rw [List.prefix_iff_eq_take]
    apply List.ext_getElem?
    intro i
    by_cases hi : i < p.length
    · rw [List.getElem?_take_of_lt hi, h i hi]
    · rw [List.getElem?_eq_none (by omega), List.getElem?_eq_none (by simp; omega)]

theorem window_eq (b : List UInt8) : Detect.window b = some (b.take 512) := by
  unfold Detect.window sliceTo
  simp only [len, sniffLen]
  split
  · rw [if_pos (by omega)]
    rfl
  · rw [List.take_of_length_le (by omega)]

theorem take_min_eq (b : List UInt8) : b.take (min b.length 512) = b.take 512 := by
  rcases Nat.le_total b.length 512 with h | h
  · rw [Nat.min_eq_left h, List.take_of_length_le h, List.take_of_length_le (le_refl _)]
  · rw [Nat.min_eq_right h]

theorem Detect_eq_loop (b : List UInt8) :
    Detect b = Detect.loop sniffSignatures (b.take 512) := by
  simp [Detect, window_eq]

theorem offsetSig_match_eq (o : offsetSig) (data : List UInt8)
    (h0 : 0 ≤ o.offset) (h1 : o.offset + len o.sig < 2 ^ 63) :
    o.«match» data =
      if len data < o.offset + len o.sig then some Unknown
      else if HasPrefix (data.drop o.offset.toNat) o.sig then some o.mt else some Unknown := by
  have hs := len_nonneg o.sig
  unfold offsetSig.«match»
  rw [wrapInt_eq_self (by omega) h1]
  split
  · rfl
  · rename_i h
    have hb : 0 ≤ o.offset ∧ o.offset ≤ len data := ⟨h0, by omega⟩
    simp only [sliceFrom, if_pos hb]

theorem match_cases (s : sniffSig) (data : List UInt8) (hs : s.inRange = true) :
    s.«match» data = some s.mt ∨ s.«match» data = some Unknown := by
  cases s with
  | ofExact e =>
    simp only [sniffSig.«match», exactSig.«match», sniffSig.mt]
    split <;> simp
  | ofOffset o =>
    simp only [sniffSig.inRange, Bool.and_eq_true, decide_eq_true_eq] at hs
    simp only [sniffSig.«match», sniffSig.mt, offsetSig_match_eq o data hs.1 hs.2]
    split_ifs <;> simp

theorem loop_all_unknown (tbl : List sniffSig) (data : List UInt8)
    (h : ∀ s ∈ tbl, s.«match» data = some Unknown) :
    Detect.loop tbl data = some OctetStream := by
  induction tbl with
  | nil => rfl
  | cons s rest ih =>
    have hs := h s (List.mem_cons_self _ _)
    simp only [Detect.loop, hs, ne_eq, not_true_eq_false, if_false]
    exact ih fun t ht => h t (List.mem_cons_of_mem _ ht)

theorem loop_first (tbl : List sniffSig) (data : List UInt8) (i : Nat) (s : sniffSig) (m : MIME)
    (hi : tbl[i]? = some s) (hm : s.«match» data = some m) (hne : m ≠ Unknown)
    (hprev : ∀ t ∈ tbl.take i, t.«match» data = some Unknown) :
    Detect.loop tbl data = some m := by
  induction tbl generalizing i with
  | nil => simp at hi
  | cons hd rest ih =>
    cases i with
    | zero =>
      simp only [List.getElem?_cons_zero, Option.some.injEq] at hi
      subst hi
      simp [Detect.loop, hm, hne]
    | succ k =>
      rw [List.take_succ_cons] at hprev
      have h0 := hprev hd (List.mem_cons_self _ _)
      simp only [Detect.loop, h0, ne_eq, not_true_eq_false, if_false]
      exact ih k (by simpa using hi) fun t ht => hprev t (List.mem_cons_of_mem _ ht)

theorem loop_cases (tbl : List sniffSig) (data : List UInt8)
    (hr : ∀ s ∈ tbl, s.inRange = true) :
    (∃ s ∈ tbl, s.«match» data = some s.mt ∧ s.mt ≠ Unknown ∧
        Detect.loop tbl data = some s.mt) ∨
      ((∀ s ∈ tbl, s.«match» data = some Unknown) ∧ Detect.loop tbl data = some OctetStream) := by
  induction tbl with
  | nil => right; exact ⟨by simp, rfl⟩
  | cons hd rest ih =>
    have hrest : ∀ s ∈ rest, s.inRange = true := fun s hs => hr s (List.mem_cons_of_mem _ hs)
    by_cases hu : hd.«match» data = some Unknown
    · rcases ih hrest with ⟨s, hs, h1, h2, h3⟩ | ⟨h1, h2⟩
      · left
        exact ⟨s, List.mem_cons_of_mem _ hs, h1, h2, by simp [Detect.loop, hu, h3]⟩
      · right
        refine ⟨fun s hs => ?_, by simp [Detect.loop, hu, h2]⟩
        rcases List.mem_cons.mp hs with rfl | hs
        · exact hu
        · exact h1 s hs
    · left
      rcases match_cases hd data (hr hd (List.mem_cons_self _ _)) with h | h
      · have hne : hd.mt ≠ Unknown := fun e => hu (e ▸ h)
        exact ⟨hd, List.mem_cons_self _ _, h, hne, by simp [Detect.loop, h, hne]⟩
      · exact absurd h hu

theorem table_inRange : ∀ s ∈ sniffSignatures, s.inRange = true := by
  decide

theorem table_mt_named : ∀ s ∈ sniffSignatures,
    s.mt ≠ Unknown ∧ s.mt ≠ OctetStream ∧
      (s.mt = Zip ∨ s.mt = Rar ∨ s.mt = Gzip ∨ s.mt = Bzip ∨ s.mt = Bzip2 ∨ s.mt = Tar ∨
        s.mt = PDF ∨ s.mt = Xz ∨ s.mt = Lz4) := by
  decide

theorem exactSig_match_eq (e : exactSig) (data : List UInt8) :
    e.«match» data = if e.sig <+: data then e.mt else Unknown := by
  unfold exactSig.«match»
  by_cases h : e.sig <+: data
  · rw [if_pos h, if_pos ((HasPrefix_iff _ _).mpr h)]
  · rw [if_neg h, if_neg (fun h1 => h ((HasPrefix_iff _ _).mp h1))]

theorem prefix_drop_iff (s p : List UInt8) (k : Nat) :
    p <+: s.drop k ↔
      p.length ≤ (s.drop k).length ∧ ∀ i, i < p.length → s[k + i]? = p[i]? := by
  rw [prefix_iff_getElem?]
  simp only [List.getElem?_drop]

theorem window_append (p rest : List UInt8) (hp : p.length ≤ 512) :
    (p ++ rest).take 512 = p ++ rest.take (512 - p.length) := by
  rw [List.take_append_eq_append_take, List.take_of_length_le hp]

theorem loop_exact_miss (e : exactSig) (rest : List sniffSig) (data : List UInt8)
    (h : ¬ e.sig <+: data) :
    Detect.loop (.ofExact e :: rest) data = Detect.loop rest data := by
  simp [Detect.loop, sniffSig.«match», exactSig_match_eq, h]

theorem loop_exact_hit (e : exactSig) (rest : List sniffSig) (data : List UInt8)
    (h : e.sig <+: data) (hne : e.mt ≠ Unknown) :
    Detect.loop (.ofExact e :: rest) data = some e.mt := by
  simp [Detect.loop, sniffSig.«match», exactSig_match_eq, h, hne]

theorem match_eq_fits (s : sniffSig) (data : List UInt8) (hs : s.inRange = true) :
    s.«match» data = some (if s.fits data then s.mt else Unknown) := by
  cases s with
  | ofExact e =>
    have hiff : (sniffSig.ofExact e).fits data ↔ e.sig <+: data := by
      simp only [sniffSig.fits, sniffSig.offset, sniffSig.sig, Int.toNat_zero, List.drop_zero,
        zero_add, len, Nat.cast_le]
      exact ⟨fun h => h.2, fun h => ⟨h.length_le, h⟩⟩
    simp only [sniffSig.«match», exactSig_match_eq, sniffSig.mt, hiff]
  | ofOffset o =>
    simp only [sniffSig.inRange, Bool.and_eq_true, decide_eq_true_eq] at hs
    simp only [sniffSig.«match», sniffSig.mt, offsetSig_match_eq o data hs.1 hs.2,
      sniffSig.fits, sniffSig.offset, sniffSig.sig]
    by_cases hl : len data < o.offset + len o.sig
    · rw [if_pos hl, if_neg (fun h => absurd h.1 (by omega))]
    · rw [if_neg hl]
      by_cases hp : o.sig <+: data.drop o.offset.toNat
      · rw [if_pos ((HasPrefix_iff _ _).mpr hp), if_pos ⟨by omega, hp⟩]
      · rw [if_neg (fun h => hp ((HasPrefix_iff _ _).mp h)), if_neg (fun h => hp h.2)]

theorem hit_iff_fits (s : sniffSig) (data : List UInt8) (hs : s.inRange = true)
    (hmt : s.mt ≠ Unknown) : s.hit data = true ↔ s.fits data := by
  unfold sniffSig.hit
  rw [match_eq_fits s data hs]
  by_cases h : s.fits data <;> simp [h, hmt]

theorem match_unknown_iff (s : sniffSig) (data : List UInt8) (hs : s.inRange = true)
    (hmt : s.mt ≠ Unknown) : s.«match» data = some Unknown ↔ ¬ s.fits data := by
  rw [match_eq_fits s data hs]
  by_cases h : s.fits data <;> simp [h, hmt]

theorem match_mt_iff (s : sniffSig) (data : List UInt8) (hs : s.inRange = true)
    (hmt : s.mt ≠ Unknown) : s.«match» data = some s.mt ↔ s.fits data := by
  rw [match_eq_fits s data hs]
  by_cases h : s.fits data <;> simp [h, hmt]
  exact fun h => hmt h.symm

theorem table_ordered : sniffSignatures.Pairwise sniffSig.ordered := by
  decide

theorem table_offsets : ∀ s ∈ sniffSignatures,
    (s.offset = 0 ∨ s.offset = 257) ∧ 3 ≤ len s.sig ∧ s.offset + len s.sig ≤ 265 ∧
      (s.offset ≠ 0 → s.mt = Tar) := by
  decide

theorem fits_congr (s : sniffSig) (d r : List UInt8) (h0 : 0 ≤ s.offset)
    (hl : s.offset + len s.sig ≤ len d) : s.fits (d ++ r) ↔ s.fits d := by
  have hk : s.offset.toNat + s.sig.length ≤ d.length := by
    simp only [len] at hl
    omega
  unfold sniffSig.fits
  rw [prefix_drop_iff, prefix_drop_iff]
  have hget : ∀ i, i < s.sig.length → (d ++ r)[s.offset.toNat + i]? = d[s.offset.toNat + i]? :=
    fun i hi => List.getElem?_append_left (by omega)
  constructor
  · rintro ⟨-, -, h⟩
    exact ⟨hl, by rw [List.length_drop]; omega, fun i hi => (hget i hi) ▸ h i hi⟩
  · rintro ⟨-, -, h⟩
    refine ⟨?_, ?_, fun i hi => (hget i hi).symm ▸ h i hi⟩
    · simp only [len, List.length_append, Nat.cast_add] at *
      omega
    · rw [List.length_drop, List.length_append]
      omega

theorem fits_take (s : sniffSig) (d : List UInt8) (n : Nat) (h0 : 0 ≤ s.offset)
    (hn : s.offset + len s.sig ≤ n) : s.fits (d.take n) ↔ s.fits d := by
  by_cases hl : s.offset + len s.sig ≤ len (d.take n)
  · have h := fits_congr s (d.take n) (d.drop n) h0 hl
    rw [List.take_append_drop] at h
    exact h.symm
  · have hd : ¬ s.offset + len s.sig ≤ len d := by
      simp only [len, List.length_take, Nat.cast_min] at *
      omega
    exact ⟨fun h => absurd h.1 hl, fun h => absurd h.1 hd⟩

theorem fits_comparable (s t : sniffSig) (d : List UInt8) (hs : s.fits d) (ht : t.fits d)
    (ho : s.offset = t.offset) : s.sig <+: t.sig ∨ t.sig <+: s.sig := by
  have h2 := ht.2
  rw [← ho] at h2
  exact List.prefix_or_prefix_of_prefix hs.2 h2

theorem ordered_exclusive (t s : sniffSig) (d : List UInt8) (hts : t.ordered s)
    (ho : t.offset = s.offset) : ¬ (t.fits d ∧ s.fits d) :=
  fun h => hts.1 ho (fits_comparable t s d h.1 h.2 ho)

theorem loop_congr (tbl : List sniffSig) (d d' : List UInt8)
    (h : ∀ s ∈ tbl, s.«match» d = s.«match» d') :
    Detect.loop tbl d = Detect.loop tbl d' := by
  induction tbl with
  | nil => rfl
  | cons hd rest ih =>
    simp only [Detect.loop, h hd (List.mem_cons_self _ _)]
    rw [ih fun s hs => h s (List.mem_cons_of_mem _ hs)]

theorem inRange_offset_nonneg (s : sniffSig) (hs : s.inRange = true) : 0 ≤ s.offset := by
  cases s with
  | ofExact e => simp [sniffSig.offset]
  | ofOffset o =>
    simp only [sniffSig.inRange, Bool.and_eq_true, decide_eq_true_eq] at hs
    exact hs.1

theorem match_take (s : sniffSig) (d : List UInt8) (n : Nat) (hs : s.inRange = true)
    (hn : s.offset + len s.sig ≤ n) : s.«match» (d.take n) = s.«match» d := by
  rw [match_eq_fits s _ hs, match_eq_fits s _ hs]
  simp only [fits_take s d n (inRange_offset_nonneg s hs) hn]

theorem loop_cons_unknown (hd : sniffSig) (rest : List sniffSig) (d : List UInt8)
    (h : hd.«match» d = some Unknown) :
    Detect.loop (hd :: rest) d = Detect.loop rest d := by
  simp [Detect.loop, h]

theorem loop_cons_mt (hd : sniffSig) (rest : List sniffSig) (d : List UInt8)
    (h : hd.«match» d = some hd.mt) (hne : hd.mt ≠ Unknown) :
    Detect.loop (hd :: rest) d = some hd.mt := by
  simp [Detect.loop, h, hne]

theorem loop_stable (tbl : List sniffSig) (d r : List UInt8)
    (hr : ∀ s ∈ tbl, s.inRange = true) (hmt : ∀ s ∈ tbl, s.mt ≠ Unknown)
    (hpw : tbl.Pairwise sniffSig.ordered) (h : Detect.loop tbl d ≠ some OctetStream) :
    Detect.loop tbl (d ++ r) = Detect.loop tbl d := by
  induction tbl with
  | nil => exact absurd rfl h
  | cons hd rest ih =>
    have hhd := hr hd (List.mem_cons_self _ _)
    have hhm := hmt hd (List.mem_cons_self _ _)
    have hrest : ∀ s ∈ rest, s.inRange = true := fun s hs => hr s (List.mem_cons_of_mem _ hs)
    have hmrest : ∀ s ∈ rest, s.mt ≠ Unknown := fun s hs => hmt s (List.mem_cons_of_mem _ hs)
    obtain ⟨hhead, htail⟩ := List.pairwise_cons.mp hpw
    have h0 := inRange_offset_nonneg hd hhd
    by_cases hf : hd.fits d
    · have hf' : hd.fits (d ++ r) := (fits_congr hd d r h0 hf.1).mpr hf
      rw [loop_cons_mt hd rest d ((match_mt_iff hd d hhd hhm).mpr hf) hhm,
        loop_cons_mt hd rest _ ((match_mt_iff hd _ hhd hhm).mpr hf') hhm]
    · have hu := (match_unknown_iff hd d hhd hhm).mpr hf
      rw [loop_cons_unknown hd rest d hu] at h ⊢
      rcases loop_cases rest d hrest with ⟨s, hs, hsm, hsne, -⟩ | ⟨-, hfb⟩
      · have hsf : s.fits d := (match_mt_iff s d (hrest s hs) hsne).mp hsm
        have hs0 := inRange_offset_nonneg s (hrest s hs)
        have hsf' : s.fits (d ++ r) := (fits_congr s d r hs0 hsf.1).mpr hsf
        have hnf : ¬ hd.fits (d ++ r) := by
          intro hf'
          by_cases ho : hd.offset = s.offset
          · exact ordered_exclusive hd s _ (hhead s hs) ho ⟨hf', hsf'⟩
          · have hle := (hhead s hs).2 ho
            exact hf ((fits_congr hd d r h0 (le_trans hle hsf.1)).mp hf')
        rw [loop_cons_unknown hd rest _ ((match_unknown_iff hd _ hhd hhm).mpr hnf)]
        exact ih hrest hmrest htail h
      · exact absurd hfb h

theorem filter_length_le_one (l : List sniffSig) (p : sniffSig → Bool)
    (h : l.Pairwise fun a b => ¬ (p a = true ∧ p b = true)) : (l.filter p).length ≤ 1 := by
  induction l with
  | nil => simp
  | cons a l ih =>
    obtain ⟨ha, hl⟩ := List.pairwise_cons.mp h
    by_cases hp : p a = true
    · have hnil : l.filter p = [] := by
        rw [List.filter_eq_nil_iff]
        exact fun b hb hpb => ha b hb ⟨hp, hpb⟩
      simp [List.filter_cons, hp, hnil]
    · simpa [List.filter_cons, hp] using ih hl

theorem table_mt_ne : ∀ s ∈ sniffSignatures, s.mt ≠ Unknown :=
  fun s hs => (table_mt_named s hs).1

theorem table_kinds : ∀ s ∈ sniffSignatures,
    (s.row.1 = true → s.offset = 0) ∧ (s.row.1 = false → s.offset = 257 ∧ s.mt = Tar) := by
  decide

theorem table_exclusive : ∀ s ∈ sniffSignatures, ∀ t ∈ sniffSignatures, s ≠ t →
    s.offset = t.offset → ¬ (s.sig <+: t.sig ∨ t.sig <+: s.sig) := by
  decide

theorem table_hit_iff (s : sniffSig) (hs : s ∈ sniffSignatures) (d : List UInt8) :
    s.hit d = true ↔ s.fits d :=
  hit_iff_fits s d (table_inRange s hs) (table_mt_ne s hs)

theorem table_not_both (s t : sniffSig) (hs : s ∈ sniffSignatures) (ht : t ∈ sniffSignatures)
    (hne : s ≠ t) (ho : s.offset = t.offset) (d : List UInt8) : ¬ (s.fits d ∧ t.fits d) :=
  fun h => table_exclusive s hs t ht hne ho (fits_comparable s t d h.1 h.2 ho)

theorem table_split : sniffSignatures.take 9 ++ sniffSignatures.drop 9 = sniffSignatures :=
  List.take_append_drop 9 sniffSignatures

theorem table_take_offsets : ∀ s ∈ sniffSignatures.take 9, s.offset = 0 := by
  decide

theorem table_drop_offsets : ∀ s ∈ sniffSignatures.drop 9, s.offset = 257 := by
  decide

theorem hits_le_one (l : List sniffSig) (k : Int) (d : List UInt8)
    (hsub : l.Sublist sniffSignatures) (hk : ∀ s ∈ l, s.offset = k) :
    (l.filter fun s => s.hit d).length ≤ 1 := by
  refine filter_length_le_one l _ ?_
  refine List.Pairwise.imp_of_mem ?_ (List.Pairwise.sublist hsub table_ordered)
  intro a b ha hb hab
  rw [table_hit_iff a (hsub.subset ha), table_hit_iff b (hsub.subset hb)]
  exact ordered_exclusive a b d hab ((hk a ha).trans (hk b hb).symm)

/-! ## The claims -/

/-- C1: for every byte sequence, the empty one included, `Detect` returns a value
(it does not panic), that value is one of the ten named constants `Zip`, `Rar`,
`Gzip`, `Bzip`, `Bzip2`, `Tar`, `PDF`, `Xz`, `Lz4`, `OctetStream`, and it is never
`Unknown`. -/
theorem Detect_named (b : List UInt8) :
    ∃ m, Detect b = some m ∧ m ≠ Unknown ∧
      (m = Zip ∨ m = Rar ∨ m = Gzip ∨ m = Bzip ∨ m = Bzip2 ∨ m = Tar ∨ m = PDF ∨
        m = Xz ∨ m = Lz4 ∨ m = OctetStream) := by
  rw [Detect_eq_loop]
  rcases loop_cases sniffSignatures (b.take 512) table_inRange with ⟨s, hs, -, -, h⟩ | ⟨-, h⟩
  · obtain ⟨h1, -, h3⟩ := table_mt_named s hs
    refine ⟨s.mt, h, h1, ?_⟩
    rcases h3 with h | h | h | h | h | h | h | h | h <;> simp [h]
  · exact ⟨OctetStream, h, by decide, by simp⟩

/-- C2: with `w` the first `min(len(b), 512)` bytes of `b`:
every rule of the table returns a value on `w`; if the rule at position `i`
returns a value other than `Unknown` while every rule before position `i`
returns `Unknown`, then `Detect b` is that value; and if every rule returns
`Unknown`, then `Detect b` is `OctetStream`. -/
theorem Detect_first_match (b : List UInt8) :
    (∀ s ∈ sniffSignatures, ∃ m, s.«match» (b.take (min b.length 512)) = some m) ∧
    (∀ (i : Nat) (s : sniffSig) (m : MIME), sniffSignatures[i]? = some s →
        s.«match» (b.take (min b.length 512)) = some m → m ≠ Unknown →
        (∀ t ∈ sniffSignatures.take i, t.«match» (b.take (min b.length 512)) = some Unknown) →
        Detect b = some m) ∧
    ((∀ s ∈ sniffSignatures, s.«match» (b.take (min b.length 512)) = some Unknown) →
        Detect b = some OctetStream) := by
  rw [take_min_eq, Detect_eq_loop]
  refine ⟨fun s hs => ?_, fun i s m hi hm hne hprev => ?_, fun h => ?_⟩
  · rcases match_cases s (b.take 512) (table_inRange s hs) with h | h <;> exact ⟨_, h⟩
  · exact loop_first _ _ i s m hi hm hne hprev
  · exact loop_all_unknown _ _ h

/-- Witness for C2: on `42 5A 30` the rule at position 6 is the first to answer, with `Bzip`. -/
theorem Detect_first_match_witness : Detect [0x42, 0x5A, 0x30] = some Bzip :=
  (Detect_first_match [0x42, 0x5A, 0x30]).2.1 6 (.ofExact ⟨[0x42, 0x5A, 0x30], Bzip⟩) Bzip
    (by decide) (by decide) (by decide) (by decide)

/-- C3: truncation invariance.  For every byte sequence `b` longer than 512 bytes the
slice `b[:512]` is in bounds and `Detect b = Detect (b[:512])`. -/
theorem Detect_truncation (b : List UInt8) (h : b.length > 512) :
    sliceTo b 512 = some (b.take 512) ∧ Detect b = Detect (b.take 512) := by
  constructor
  · have : (0 : Int) ≤ 512 ∧ (512 : Int) ≤ len b := ⟨by omega, by simp only [len]; omega⟩
    simp only [sliceTo, if_pos this]
    rfl
  · rw [Detect_eq_loop, Detect_eq_loop, List.take_take, Nat.min_self]

/-- Witness for C3: a `%PDF-` header followed by 600 zero bytes. -/
theorem Detect_truncation_witness :
    (([0x25, 0x50, 0x44, 0x46, 0x2D] : List UInt8) ++ List.replicate 600 0).length > 512 ∧
      Detect (([0x25, 0x50, 0x44, 0x46, 0x2D] : List UInt8) ++ List.replicate 600 0) =
        Detect ((([0x25, 0x50, 0x44, 0x46, 0x2D] : List UInt8) ++ List.replicate 600 0).take 512) :=
  ⟨by simp only [List.length_append, List.length_replicate, List.length_cons,
      List.length_nil]; decide,
    (Detect_truncation _ (by
      simp only [List.length_append, List.length_replicate, List.length_cons,
        List.length_nil]; decide)).2⟩

/-- C4: `Detect b` is `OctetStream` exactly when every rule of the table returns
`Unknown` on the sniff window of `b`, its first `min(len(b), 512)` bytes. -/
theorem Detect_fallback_iff (b : List UInt8) :
    Detect b = some OctetStream ↔
      ∀ s ∈ sniffSignatures, s.«match» (b.take (min b.length 512)) = some Unknown := by
  rw [take_min_eq, Detect_eq_loop]
  constructor
  · intro h
    rcases loop_cases sniffSignatures (b.take 512) table_inRange with ⟨s, hs, -, -, h3⟩ | ⟨h1, -⟩
    · rw [h] at h3
      exact absurd (Option.some.inj h3).symm (table_mt_named s hs).2.1
    · exact h1
  · exact loop_all_unknown _ _

/-- C5: prefix rule semantics.  For every `exactSig` rule and every `data`,
`match` returns the rule's `mt` if `data` is at least as long as `sig` and agrees
with `sig` byte for byte on its first `len(sig)` positions, and returns `Unknown`
otherwise. -/
theorem exactSig_match_spec (e : exactSig) (data : List UInt8) :
    ((len data ≥ len e.sig ∧ ∀ i, i < e.sig.length → data[i]? = e.sig[i]?) →
        e.«match» data = e.mt) ∧
    (¬ (len data ≥ len e.sig ∧ ∀ i, i < e.sig.length → data[i]? = e.sig[i]?) →
        e.«match» data = Unknown) := by
  have hiff : (len data ≥ len e.sig ∧ ∀ i, i < e.sig.length → data[i]? = e.sig[i]?) ↔
      e.sig <+: data := by
    rw [prefix_iff_getElem?]
    simp only [len, ge_iff_le, Nat.cast_le]
  rw [hiff, exactSig_match_eq]
  exact ⟨fun h => if_pos h, fun h => if_neg h⟩

/-- Witness for C5: the rule `("%PDF-", PDF)` on `%PDF-1.4` and on the too short `%PDF`. -/
theorem exactSig_match_spec_witness :
    exactSig.«match» ⟨[0x25, 0x50, 0x44, 0x46, 0x2D], PDF⟩
        [0x25, 0x50, 0x44, 0x46, 0x2D, 0x31, 0x2E, 0x34] = PDF ∧
      exactSig.«match» ⟨[0x25, 0x50, 0x44, 0x46, 0x2D], PDF⟩ [0x25, 0x50, 0x44, 0x46] = Unknown :=
  ⟨(exactSig_match_spec ⟨[0x25, 0x50, 0x44, 0x46, 0x2D], PDF⟩
      [0x25, 0x50, 0x44, 0x46, 0x2D, 0x31, 0x2E, 0x34]).1 (by decide),
   (exactSig_match_spec ⟨[0x25, 0x50, 0x44, 0x46, 0x2D], PDF⟩
      [0x25, 0x50, 0x44, 0x46]).2 (by decide)⟩

/-- C6 as stated fails: the rule with pattern `00` at offset `2^63 - 1` (the largest
`int`) on the empty input.  The sum `offset+len(sig)` wraps to `-2^63`, the length
test `len(data) < offset+len(sig)` is false, and `data[offset:]` is out of range:
`match` panics instead of returning `Unknown`. -/
theorem offsetSig_match_overflow :
    offsetSig.«match» ⟨[0x00], 9223372036854775807, Tar⟩ [] = none ∧
    ¬ ∀ (o : offsetSig) (data : List UInt8), 0 ≤ o.offset →
      ((len data ≥ o.offset + len o.sig ∧
          ∀ i, i < o.sig.length → data[o.offset.toNat + i]? = o.sig[i]?) →
        o.«match» data = some o.mt) ∧
      (¬ (len data ≥ o.offset + len o.sig ∧
          ∀ i, i < o.sig.length → data[o.offset.toNat + i]? = o.sig[i]?) →
        o.«match» data = some Unknown) := by
  have hnone : offsetSig.«match» ⟨[0x00], 9223372036854775807, Tar⟩ [] = none := by decide
  refine ⟨hnone, fun h => ?_⟩
  have h2 := (h ⟨[0x00], 9223372036854775807, Tar⟩ [] (by decide)).2
    (fun hc => absurd hc.1 (by decide))
  rw [hnone] at h2
  exact Option.noConfusion h2

/-- C6, amended: offset rule semantics.  For every `offsetSig` rule with
`0 ≤ offset` and `offset + len(sig)` within the range of `int` (below `2^63`) and every
`data`, `match` returns the rule's `mt` if `len(data) ≥ offset + len(sig)` and `data`
agrees with `sig` byte for byte at positions `[offset, offset+len(sig))`, and returns
`Unknown` otherwise, in particular whenever `data` is shorter than `offset + len(sig)`. -/
theorem offsetSig_match_spec (o : offsetSig) (data : List UInt8)
    (h0 : 0 ≤ o.offset) (h1 : o.offset + len o.sig < 2 ^ 63) :
    ((len data ≥ o.offset + len o.sig ∧
        ∀ i, i < o.sig.length → data[o.offset.toNat + i]? = o.sig[i]?) →
      o.«match» data = some o.mt) ∧
    (¬ (len data ≥ o.offset + len o.sig ∧
        ∀ i, i < o.sig.length → data[o.offset.toNat + i]? = o.sig[i]?) →
      o.«match» data = some Unknown) ∧
    (len data < o.offset + len o.sig → o.«match» data = some Unknown) := by
  rw [offsetSig_match_eq o data h0 h1]
  refine ⟨fun ⟨hl, hb⟩ => ?_, fun hn => ?_, fun hl => if_pos hl⟩
  · rw [if_neg (by omega), if_pos]
    rw [HasPrefix_iff, prefix_drop_iff]
    refine ⟨?_, hb⟩
    simp only [len, List.length_drop] at *
    omega
  · by_cases hl : len data < o.offset + len o.sig
    · rw [if_pos hl]
    · rw [if_neg hl, if_neg]
      rw [HasPrefix_iff, prefix_drop_iff]
      exact fun hp => hn ⟨by omega, hp.2⟩

/-- Witness for C6 (amended): the rule with pattern `61 62` at offset 2, on `00 00 61 62 63`. -/
theorem offsetSig_match_spec_witness :
    offsetSig.«match» ⟨[0x61, 0x62], 2, Tar⟩ [0x00, 0x00, 0x61, 0x62, 0x63] = some Tar ∧
      offsetSig.«match» ⟨[0x61, 0x62], 2, Tar⟩ [0x00, 0x00, 0x61] = some Unknown :=
  ⟨(offsetSig_match_spec ⟨[0x61, 0x62], 2, Tar⟩ [0x00, 0x00, 0x61, 0x62, 0x63]
      (by decide) (by decide)).1 (by decide),
   (offsetSig_match_spec ⟨[0x61, 0x62], 2, Tar⟩ [0x00, 0x00, 0x61]
      (by decide) (by decide)).2.2 (by decide)⟩

/-- C7: short-input safety.  For every byte sequence `b`, of any length:
the truncation step of `Detect` does not panic, and `b[:512]` is in bounds whenever
`len(b) > 512`; for every offset rule of the table and every `data` that passes the
length test of `offsetSig.match`, the index of `data[offset:]` satisfies
`0 ≤ offset ≤ len(data)`; no rule of the table panics on any `data`; and `Detect b`
does not panic. -/
theorem Detect_slices_in_bounds (b : List UInt8) :
    Detect.window b ≠ none ∧
    (len b > sniffLen → sliceTo b sniffLen ≠ none) ∧
    (∀ o, sniffSig.ofOffset o ∈ sniffSignatures → ∀ data : List UInt8,
        ¬ len data < wrapInt (o.offset + len o.sig) →
        (0 ≤ o.offset ∧ o.offset ≤ len data) ∧ sliceFrom data o.offset ≠ none) ∧
    (∀ s ∈ sniffSignatures, ∀ data : List UInt8, s.«match» data ≠ none) ∧
    Detect b ≠ none := by
  refine ⟨by simp [window_eq], fun h => ?_, fun o ho data hlen => ?_, fun s hs data => ?_, ?_⟩
  · have hb : 0 ≤ sniffLen ∧ sniffLen ≤ len b := ⟨by decide, by omega⟩
    simp [sliceTo, hb]
  · have hr := table_inRange _ ho
    simp only [sniffSig.inRange, Bool.and_eq_true, decide_eq_true_eq] at hr
    rw [wrapInt_eq_self (by have := len_nonneg o.sig; omega) hr.2] at hlen
    have hb : 0 ≤ o.offset ∧ o.offset ≤ len data := by
      have := len_nonneg o.sig
      exact ⟨hr.1, by omega⟩
    exact ⟨hb, by simp [sliceFrom, hb]⟩
  · rcases match_cases s data (table_inRange s hs) with h | h <;> simp [h]
  · rw [Detect_eq_loop]
    rcases loop_cases sniffSignatures (b.take 512) table_inRange with ⟨s, -, -, -, h⟩ | ⟨-, h⟩ <;>
      simp [h]

/-- Witness for C7: on the 3-byte input `75 73 74`, far shorter than 265 bytes, the first
offset rule of the table does not panic, and neither does `Detect`. -/
theorem Detect_slices_in_bounds_witness :
    offsetSig.«match» ⟨[0x75, 0x73, 0x74, 0x61, 0x72, 0x00, 0x30, 0x30], 257, Tar⟩
        [0x75, 0x73, 0x74] ≠ none ∧ Detect [0x75, 0x73, 0x74] ≠ none :=
  ⟨(Detect_slices_in_bounds [0x75, 0x73, 0x74]).2.2.2.1
      (.ofOffset ⟨[0x75, 0x73, 0x74, 0x61, 0x72, 0x00, 0x30, 0x30], 257, Tar⟩) (by decide)
      [0x75, 0x73, 0x74],
   (Detect_slices_in_bounds [0x75, 0x73, 0x74]).2.2.2.2⟩

/-- C8: `String` maps each of the ten named constants to its canonical label. -/
theorem String_labels :
    Zip.String = "application/zip" ∧ Rar.String = "application/x-rar" ∧
    Gzip.String = "application/x-gzip" ∧ Bzip.String = "application/x-bzip" ∧
    Bzip2.String = "application/x-bzip2" ∧ Tar.String = "application/x-tar" ∧
    PDF.String = "application/pdf" ∧ Xz.String = "application/x-xz" ∧
    Lz4.String = "application/x-lz4" ∧ OctetStream.String = "application/octet-stream" ∧
    (∀ m : MIME, (m = Zip ∨ m = Rar ∨ m = Gzip ∨ m = Bzip ∨ m = Bzip2 ∨ m = Tar ∨ m = PDF ∨
        m = Xz ∨ m = Lz4 ∨ m = OctetStream) → m.String ≠ "") := by
  refine ⟨by decide, by decide, by decide, by decide, by decide, by decide, by decide,
    by decide, by decide, by decide, fun m hm => ?_⟩
  rcases hm with h | h | h | h | h | h | h | h | h | h <;> subst h <;> decide

/-- C9: `String` is total, and for every `MIME` value `m` (any integer) it returns the
empty string exactly when `m` is none of the ten named constants; in particular
`Unknown.String = ""`. -/
theorem String_empty_iff (m : MIME) :
    (∃ l : String, m.String = l) ∧
    (m.String = "" ↔
      ¬ (m = Zip ∨ m = Rar ∨ m = Gzip ∨ m = Bzip ∨ m = Bzip2 ∨ m = Tar ∨ m = PDF ∨
        m = Xz ∨ m = Lz4 ∨ m = OctetStream)) ∧
    Unknown.String = "" := by
  refine ⟨⟨_, rfl⟩, ?_, by decide⟩
  unfold MIME.String
  split_ifs <;> simp_all

/-- C10: for every prefix rule `(sig, mt)` of the table and every byte sequence `b`
that starts with `sig`, whatever follows and whatever its length, `Detect b` is `mt`:
`%PDF-` gives `PDF`, `50 4B 03 04` gives `Zip`, `1F 8B 08` gives `Gzip`, `42 5A 68`
gives `Bzip2`, `42 5A 30` gives `Bzip`, `FD 37 7A 58 5A 00` gives `Xz`, `04 22 4D 18`
gives `Lz4`, and both RAR patterns give `Rar`. -/
theorem Detect_prefix_rule (e : exactSig) (he : sniffSig.ofExact e ∈ sniffSignatures)
    (b : List UInt8) (hb : e.sig <+: b) :
    Detect b = some e.mt ∧
    (e = ⟨[0x25, 0x50, 0x44, 0x46, 0x2D], PDF⟩ ∨
      e = ⟨[0x52, 0x61, 0x72, 0x21, 0x1A, 0x07, 0x00], Rar⟩ ∨
      e = ⟨[0x52, 0x61, 0x72, 0x21, 0x1A, 0x07, 0x01, 0x00], Rar⟩ ∨
      e = ⟨[0x50, 0x4B, 0x03, 0x04], Zip⟩ ∨
      e = ⟨[0x1F, 0x8B, 0x08], Gzip⟩ ∨
      e = ⟨[0x42, 0x5A, 0x68], Bzip2⟩ ∨
      e = ⟨[0x42, 0x5A, 0x30], Bzip⟩ ∨
      e = ⟨[0xFD, 0x37, 0x7A, 0x58, 0x5A, 0x00], Xz⟩ ∨
      e = ⟨[0x04, 0x22, 0x4D, 0x18], Lz4⟩) := by
  have hcases : e = ⟨[0x25, 0x50, 0x44, 0x46, 0x2D], PDF⟩ ∨
      e = ⟨[0x52, 0x61, 0x72, 0x21, 0x1A, 0x07, 0x00], Rar⟩ ∨
      e = ⟨[0x52, 0x61, 0x72, 0x21, 0x1A, 0x07, 0x01, 0x00], Rar⟩ ∨
      e = ⟨[0x50, 0x4B, 0x03, 0x04], Zip⟩ ∨
      e = ⟨[0x1F, 0x8B, 0x08], Gzip⟩ ∨
      e = ⟨[0x42, 0x5A, 0x68], Bzip2⟩ ∨
      e = ⟨[0x42, 0x5A, 0x30], Bzip⟩ ∨
      e = ⟨[0xFD, 0x37, 0x7A, 0x58, 0x5A, 0x00], Xz⟩ ∨
      e = ⟨[0x04, 0x22, 0x4D, 0x18], Lz4⟩ := by
    simpa [sniffSignatures] using he
  refine ⟨?_, hcases⟩
  obtain ⟨rest, rfl⟩ := hb
  rw [Detect_eq_loop]
  have hlen : e.sig.length ≤ 512 := by
    rcases hcases with h | h | h | h | h | h | h | h | h <;> subst h <;> decide
  rw [window_append _ _ hlen]
  generalize rest.take (512 - e.sig.length) = t
  unfold sniffSignatures
  rcases hcases with h | h | h | h | h | h | h | h | h <;> subst h <;>
    repeat first
      | (refine loop_exact_hit _ _ _ ?_ (by decide); · simp)
      | (rw [loop_exact_miss]; swap; · simp)

/-- Witness for C10: the inputs `%PDF-1.4`, `50 4B 03 04 14 00` and
`1F 8B 08 00 00 00 00 00`. -/
theorem Detect_prefix_rule_witness :
    Detect [0x25, 0x50, 0x44, 0x46, 0x2D, 0x31, 0x2E, 0x34] = some PDF ∧
    Detect [0x50, 0x4B, 0x03, 0x04, 0x14, 0x00] = some Zip ∧
    Detect [0x1F, 0x8B, 0x08, 0x00, 0x00, 0x00, 0x00, 0x00] = some Gzip :=
  ⟨(Detect_prefix_rule ⟨[0x25, 0x50, 0x44, 0x46, 0x2D], PDF⟩ (by decide)
      [0x25, 0x50, 0x44, 0x46, 0x2D, 0x31, 0x2E, 0x34] (by decide)).1,
   (Detect_prefix_rule ⟨[0x50, 0x4B, 0x03, 0x04], Zip⟩ (by decide)
      [0x50, 0x4B, 0x03, 0x04, 0x14, 0x00] (by decide)).1,
   (Detect_prefix_rule ⟨[0x1F, 0x8B, 0x08], Gzip⟩ (by decide)
      [0x1F, 0x8B, 0x08, 0x00, 0x00, 0x00, 0x00, 0x00] (by decide)).1⟩

/-- C11: for every byte sequence `b` of length at least 265 whose bytes at positions
257..264 are `75 73 74 61 72 00 30 30` or `75 73 74 61 72 20 20 00`, and which starts
with none of the nine prefix patterns of the table, `Detect b` is `Tar`. -/
theorem Detect_tar (b : List UInt8) (hlen : b.length ≥ 265)
    (hpat : (b.drop 257).take 8 = [0x75, 0x73, 0x74, 0x61, 0x72, 0x00, 0x30, 0x30] ∨
      (b.drop 257).take 8 = [0x75, 0x73, 0x74, 0x61, 0x72, 0x20, 0x20, 0x00])
    (hno : ∀ e, sniffSig.ofExact e ∈ sniffSignatures → ¬ e.sig <+: b) :
    Detect b = some Tar := by
  rw [Detect_eq_loop]
  rcases loop_cases sniffSignatures (b.take 512) table_inRange with
    ⟨s, hs, hm, hne, hl⟩ | ⟨hall, -⟩
  · rw [hl]
    cases s with
    | ofExact e =>
      have hf := (match_mt_iff _ _ (table_inRange _ hs) hne).mp hm
      have hp : e.sig <+: b.take 512 := by
        simpa [sniffSig.fits, sniffSig.offset, sniffSig.sig] using hf.2
      exact absurd (hp.trans (List.take_prefix _ _)) (hno e hs)
    | ofOffset o => rw [((table_kinds _ hs).2 rfl).2]
  · exfalso
    have key : ∀ p : List UInt8, (b.drop 257).take 8 = p → p.length = 8 →
        (sniffSig.ofOffset ⟨p, 257, Tar⟩).fits b := by
      intro p hp hp8
      refine ⟨?_, ?_⟩
      · simp only [sniffSig.offset, sniffSig.sig, len, hp8]
        omega
      · simp only [sniffSig.offset, sniffSig.sig]
        rw [← hp]
        exact List.take_prefix _ _
    rcases hpat with hp | hp
    · have hmem : sniffSig.ofOffset ⟨[0x75, 0x73, 0x74, 0x61, 0x72, 0x00, 0x30, 0x30], 257, Tar⟩ ∈
          sniffSignatures := by decide
      have hf := (fits_take _ b 512 (by decide) (by decide)).mpr (key _ hp rfl)
      exact (match_unknown_iff _ _ (table_inRange _ hmem) (table_mt_ne _ hmem)).mp
        (hall _ hmem) hf
    · have hmem : sniffSig.ofOffset ⟨[0x75, 0x73, 0x74, 0x61, 0x72, 0x20, 0x20, 0x00], 257, Tar⟩ ∈
          sniffSignatures := by decide
      have hf := (fits_take _ b 512 (by decide) (by decide)).mpr (key _ hp rfl)
      exact (match_unknown_iff _ _ (table_inRange _ hmem) (table_mt_ne _ hmem)).mp
        (hall _ hmem) hf

/-- Witness for C11: 257 zero bytes followed by `75 73 74 61 72 00 30 30`. -/
theorem Detect_tar_witness :
    Detect (List.replicate 257 0 ++ [0x75, 0x73, 0x74, 0x61, 0x72, 0x00, 0x30, 0x30]) =
      some Tar :=
  Detect_tar (List.replicate 257 0 ++ [0x75, 0x73, 0x74, 0x61, 0x72, 0x00, 0x30, 0x30])
    (by simp only [List.length_append, List.length_replicate, List.length_cons,
      List.length_nil]; decide)
    (Or.inl (by
      rw [List.drop_append_of_le_length (by simp only [List.length_replicate]; decide),
        List.drop_of_length_le (by simp only [List.length_replicate]; decide)]
      rfl))
    (by
      intro e he
      have hcases : e = ⟨[0x25, 0x50, 0x44, 0x46, 0x2D], PDF⟩ ∨
          e = ⟨[0x52, 0x61, 0x72, 0x21, 0x1A, 0x07, 0x00], Rar⟩ ∨
          e = ⟨[0x52, 0x61, 0x72, 0x21, 0x1A, 0x07, 0x01, 0x00], Rar⟩ ∨
          e = ⟨[0x50, 0x4B, 0x03, 0x04], Zip⟩ ∨
          e = ⟨[0x1F, 0x8B, 0x08], Gzip⟩ ∨
          e = ⟨[0x42, 0x5A, 0x68], Bzip2⟩ ∨
          e = ⟨[0x42, 0x5A, 0x30], Bzip⟩ ∨
          e = ⟨[0xFD, 0x37, 0x7A, 0x58, 0x5A, 0x00], Xz⟩ ∨
          e = ⟨[0x04, 0x22, 0x4D, 0x18], Lz4⟩ := by
        simpa [sniffSignatures] using he
      rcases hcases with h | h | h | h | h | h | h | h | h <;> subst h <;> decide)

/-- C12: every input shorter than 3 bytes, the empty one included, yields the fallback
`OctetStream`; 3 is the length of the shortest pattern of the table. -/
theorem Detect_short (b : List UInt8) (h : b.length < 3) :
    Detect b = some OctetStream ∧
      (∀ s ∈ sniffSignatures, 3 ≤ s.sig.length) ∧ (∃ s ∈ sniffSignatures, s.sig.length = 3) := by
  refine ⟨?_, by decide, by decide⟩
  rw [Detect_eq_loop]
  refine loop_all_unknown _ _ fun s hs => ?_
  rw [match_unknown_iff s _ (table_inRange s hs) (table_mt_ne s hs)]
  intro hf
  obtain ⟨ho, h3, -, -⟩ := table_offsets s hs
  have hl := hf.1
  simp only [len, List.length_take, Nat.cast_min] at hl h3
  rcases ho with ho | ho <;> omega

/-- Witness for C12: the empty input and the two-byte input `1F 8B`. -/
theorem Detect_short_witness :
    Detect [] = some OctetStream ∧ Detect [0x1F, 0x8B] = some OctetStream :=
  ⟨(Detect_short [] (by decide)).1, (Detect_short [0x1F, 0x8B] (by decide)).1⟩

/-- C13: first-match-wins ordering.  For every byte sequence `b` and every two rules
at table positions `i < j` that both hit the sniff window of `b`, `Detect b` is the
result of the rule at position `i`. -/
theorem Detect_first_wins (b : List UInt8) (i j : Nat) (s t : sniffSig) (hij : i < j)
    (hi : sniffSignatures[i]? = some s) (hj : sniffSignatures[j]? = some t)
    (hs : s.hit (b.take (min b.length 512)) = true)
    (ht : t.hit (b.take (min b.length 512)) = true) :
    Detect b = some s.mt := by
  rw [take_min_eq] at hs ht
  rw [Detect_eq_loop]
  obtain ⟨hil, his⟩ := List.getElem?_eq_some_iff.mp hi
  obtain ⟨hjl, hjt⟩ := List.getElem?_eq_some_iff.mp hj
  have hsm : s ∈ sniffSignatures := his ▸ List.getElem_mem _
  have htm : t ∈ sniffSignatures := hjt ▸ List.getElem_mem _
  have hsf := (table_hit_iff s hsm _).mp hs
  have htf := (table_hit_iff t htm _).mp ht
  have hpw := List.pairwise_iff_getElem.mp table_ordered
  have hst : s.ordered t := his ▸ hjt ▸ hpw i j hil hjl hij
  refine loop_first _ _ i s s.mt hi
    ((match_mt_iff s _ (table_inRange s hsm) (table_mt_ne s hsm)).mpr hsf)
    (table_mt_ne s hsm) fun u hu => ?_
  obtain ⟨k, hk, hku⟩ := List.mem_take_iff_getElem.mp hu
  have hki : k < i := lt_of_lt_of_le hk (min_le_left _ _)
  have hkl : k < sniffSignatures.length := lt_trans hki hil
  have hum : u ∈ sniffSignatures := hku ▸ List.getElem_mem _
  have hus : u.ordered s := hku ▸ his ▸ hpw k i hkl hil hki
  have hut : u.ordered t := hku ▸ hjt ▸ hpw k j hkl hjl (lt_trans hki hij)
  rw [match_unknown_iff u _ (table_inRange u hum) (table_mt_ne u hum)]
  intro huf
  by_cases h1 : u.offset = s.offset
  · exact ordered_exclusive u s _ hus h1 ⟨huf, hsf⟩
  · by_cases h2 : s.offset = t.offset
    · exact ordered_exclusive s t _ hst h2 ⟨hsf, htf⟩
    · have h3 : u.offset = t.offset := by
        have a := (table_offsets u hum).1
        have b := (table_offsets s hsm).1
        have c := (table_offsets t htm).1
        omega
      exact ordered_exclusive u t _ hut h3 ⟨huf, htf⟩

set_option maxRecDepth 100000 in
/-- Witness for C13: a buffer that starts with `50 4B 03 04` and carries
`75 73 74 61 72 00 30 30` at offset 257 is classified `Zip`, not `Tar`. -/
theorem Detect_first_wins_witness :
    Detect ([0x50, 0x4B, 0x03, 0x04] ++ List.replicate 253 0 ++
      [0x75, 0x73, 0x74, 0x61, 0x72, 0x00, 0x30, 0x30]) = some Zip :=
  Detect_first_wins ([0x50, 0x4B, 0x03, 0x04] ++ List.replicate 253 0 ++
      [0x75, 0x73, 0x74, 0x61, 0x72, 0x00, 0x30, 0x30]) 3 9
    (.ofExact ⟨[0x50, 0x4B, 0x03, 0x04], Zip⟩)
    (.ofOffset ⟨[0x75, 0x73, 0x74, 0x61, 0x72, 0x00, 0x30, 0x30], 257, Tar⟩)
    (by decide) (by decide) (by decide) (by decide) (by decide)

/-- C14 as stated fails: rule 2's pattern `52 61 72 21 1A 07 00` is not a prefix of
rule 3's pattern `52 61 72 21 1A 07 01 00`, and the byte sequence
`52 61 72 21 1A 07 01 00` satisfies rule 3 but not rule 2. -/
theorem rar_rule2_not_prefix_of_rule3 :
    sniffSignatures[1]? = some (.ofExact ⟨[0x52, 0x61, 0x72, 0x21, 0x1A, 0x07, 0x00], Rar⟩) ∧
    sniffSignatures[2]? =
      some (.ofExact ⟨[0x52, 0x61, 0x72, 0x21, 0x1A, 0x07, 0x01, 0x00], Rar⟩) ∧
    ¬ ([0x52, 0x61, 0x72, 0x21, 0x1A, 0x07, 0x00] <+:
        ([0x52, 0x61, 0x72, 0x21, 0x1A, 0x07, 0x01, 0x00] : List UInt8)) ∧
    exactSig.«match» ⟨[0x52, 0x61, 0x72, 0x21, 0x1A, 0x07, 0x01, 0x00], Rar⟩
      [0x52, 0x61, 0x72, 0x21, 0x1A, 0x07, 0x01, 0x00] = Rar ∧
    exactSig.«match» ⟨[0x52, 0x61, 0x72, 0x21, 0x1A, 0x07, 0x00], Rar⟩
      [0x52, 0x61, 0x72, 0x21, 0x1A, 0x07, 0x01, 0x00] = Unknown ∧
    ¬ ∀ data : List UInt8,
      exactSig.«match» ⟨[0x52, 0x61, 0x72, 0x21, 0x1A, 0x07, 0x01, 0x00], Rar⟩ data ≠ Unknown →
      exactSig.«match» ⟨[0x52, 0x61, 0x72, 0x21, 0x1A, 0x07, 0x00], Rar⟩ data ≠ Unknown := by
  refine ⟨by decide, by decide, by decide, by decide, by decide, fun h => ?_⟩
  exact h [0x52, 0x61, 0x72, 0x21, 0x1A, 0x07, 0x01, 0x00] (by decide) (by decide)

/-- C14, amended: rule 2's pattern `52 61 72 21 1A 07 00` and rule 3's pattern
`52 61 72 21 1A 07 01 00` share their first six bytes and differ at the seventh
(`00` against `01`), so neither is a prefix of the other; no byte sequence that
satisfies rule 3 (a v5 RAR header) satisfies rule 2; both rules have result `Rar`. -/
theorem rar_rules_disjoint :
    sniffSignatures[1]? = some (.ofExact ⟨[0x52, 0x61, 0x72, 0x21, 0x1A, 0x07, 0x00], Rar⟩) ∧
    sniffSignatures[2]? =
      some (.ofExact ⟨[0x52, 0x61, 0x72, 0x21, 0x1A, 0x07, 0x01, 0x00], Rar⟩) ∧
    ([0x52, 0x61, 0x72, 0x21, 0x1A, 0x07, 0x00] : List UInt8).take 6 =
      ([0x52, 0x61, 0x72, 0x21, 0x1A, 0x07, 0x01, 0x00] : List UInt8).take 6 ∧
    ([0x52, 0x61, 0x72, 0x21, 0x1A, 0x07, 0x00] : List UInt8)[6]? = some 0x00 ∧
    ([0x52, 0x61, 0x72, 0x21, 0x1A, 0x07, 0x01, 0x00] : List UInt8)[6]? = some 0x01 ∧
    ¬ ([0x52, 0x61, 0x72, 0x21, 0x1A, 0x07, 0x00] <+:
        ([0x52, 0x61, 0x72, 0x21, 0x1A, 0x07, 0x01, 0x00] : List UInt8)) ∧
    ¬ ([0x52, 0x61, 0x72, 0x21, 0x1A, 0x07, 0x01, 0x00] <+:
        ([0x52, 0x61, 0x72, 0x21, 0x1A, 0x07, 0x00] : List UInt8)) ∧
    ∀ data : List UInt8,
      exactSig.«match» ⟨[0x52, 0x61, 0x72, 0x21, 0x1A, 0x07, 0x01, 0x00], Rar⟩ data ≠ Unknown →
      exactSig.«match» ⟨[0x52, 0x61, 0x72, 0x21, 0x1A, 0x07, 0x00], Rar⟩ data = Unknown := by
  refine ⟨by decide, by decide, by decide, by decide, by decide, by decide, by decide,
    fun data h3 => ?_⟩
  rw [exactSig_match_eq] at h3 ⊢
  have hp3 : [0x52, 0x61, 0x72, 0x21, 0x1A, 0x07, 0x01, 0x00] <+: data := by
    by_contra hn
    exact h3 (if_neg hn)
  refine if_neg fun hp2 => ?_
  rcases List.prefix_or_prefix_of_prefix hp2 hp3 with h | h
  · exact absurd h (by decide)
  · exact absurd h (by decide)

set_option maxRecDepth 100000 in
/-- C15 as stated fails: the window of the buffer that starts with `50 4B 03 04` and
carries `75 73 74 61 72 00 30 30` at offset 257 is hit by two distinct rules of the
table, the `Zip` prefix rule and the first `Tar` offset rule. -/
theorem rules_not_disjoint :
    ¬ ∀ (b : List UInt8), ∀ s ∈ sniffSignatures, ∀ t ∈ sniffSignatures, s ≠ t →
      ¬ (s.hit (b.take (min b.length 512)) = true ∧
          t.hit (b.take (min b.length 512)) = true) := by
  intro h
  exact h ([0x50, 0x4B, 0x03, 0x04] ++ List.replicate 253 0 ++
      [0x75, 0x73, 0x74, 0x61, 0x72, 0x00, 0x30, 0x30])
    (.ofExact ⟨[0x50, 0x4B, 0x03, 0x04], Zip⟩) (by decide)
    (.ofOffset ⟨[0x75, 0x73, 0x74, 0x61, 0x72, 0x00, 0x30, 0x30], 257, Tar⟩) (by decide)
    (by decide) ⟨by decide, by decide⟩

/-- C15, amended: rules of the same kind are pairwise disjoint.  For every byte
sequence `b`, no two distinct prefix rules of the table both hit the sniff window of
`b`, and the two offset rules do not both hit it.  (A prefix rule and an offset rule
can hit the same window.) -/
theorem same_kind_rules_disjoint (b : List UInt8) (s t : sniffSig)
    (hs : s ∈ sniffSignatures) (ht : t ∈ sniffSignatures) (hne : s ≠ t)
    (hkind : s.row.1 = t.row.1) :
    ¬ (s.hit (b.take (min b.length 512)) = true ∧
        t.hit (b.take (min b.length 512)) = true) := by
  rw [table_hit_iff s hs, table_hit_iff t ht]
  refine table_not_both s t hs ht hne ?_ _
  have ks := table_kinds s hs
  have kt := table_kinds t ht
  cases hk : s.row.1
  · rw [(ks.2 hk).1, (kt.2 (hkind ▸ hk)).1]
  · rw [ks.1 hk, kt.1 (hkind ▸ hk)]

/-- Witness for C15 (amended): on `42 5A 68 39` the `Bzip2` and `Bzip` prefix rules do
not both hit. -/
theorem same_kind_rules_disjoint_witness :
    ¬ (sniffSig.hit (.ofExact ⟨[0x42, 0x5A, 0x68], Bzip2⟩)
          (([0x42, 0x5A, 0x68, 0x39] : List UInt8).take
            (min ([0x42, 0x5A, 0x68, 0x39] : List UInt8).length 512)) = true ∧
        sniffSig.hit (.ofExact ⟨[0x42, 0x5A, 0x30], Bzip⟩)
          (([0x42, 0x5A, 0x68, 0x39] : List UInt8).take
            (min ([0x42, 0x5A, 0x68, 0x39] : List UInt8).length 512)) = true) :=
  same_kind_rules_disjoint [0x42, 0x5A, 0x68, 0x39] (.ofExact ⟨[0x42, 0x5A, 0x68], Bzip2⟩)
    (.ofExact ⟨[0x42, 0x5A, 0x30], Bzip⟩) (by decide) (by decide) (by decide) (by decide)

/-- C16: the table of the source is, row for row and in order, the eleven-row table of
the specification (PDF, RAR, RAR v5, ZIP, GZIP, BZIP2, BZIP, XZ, LZ4, TAR, TAR), and
every rule has a non-empty pattern, a non-negative offset (0 for the nine prefix rules,
257 for the two offset rules) and a result other than `Unknown`. -/
theorem table_invariants :
    sniffSignatures.map sniffSig.row = specTable ∧
    sniffSignatures.length = 11 ∧
    (sniffSignatures.filter fun s => s.row.1).length = 9 ∧
    (sniffSignatures.filter fun s => !s.row.1).length = 2 ∧
    ∀ s ∈ sniffSignatures,
      s.sig ≠ [] ∧ 0 ≤ s.offset ∧ s.mt ≠ Unknown ∧
        (s.row.1 = true → s.offset = 0) ∧ (s.row.1 = false → s.offset = 257) := by
  refine ⟨by decide, by decide, by decide, by decide, by decide⟩

/-- C17: a recognised classification is stable under appending bytes.  For all byte
sequences `b` and `c`, if `Detect b` is not `OctetStream` then
`Detect (b ++ c) = Detect b`. -/
theorem Detect_append_stable (b c : List UInt8) (h : Detect b ≠ some OctetStream) :
    Detect (b ++ c) = Detect b := by
  rw [Detect_eq_loop] at h ⊢
  rw [Detect_eq_loop, List.take_append_eq_append_take]
  exact loop_stable _ _ _ table_inRange table_mt_ne table_ordered h

/-- Witness for C17: `1F 8B 08` is `Gzip` and stays `Gzip` when `00 01` is appended. -/
theorem Detect_append_stable_witness :
    Detect ([0x1F, 0x8B, 0x08] ++ [0x00, 0x01]) = Detect [0x1F, 0x8B, 0x08] :=
  Detect_append_stable [0x1F, 0x8B, 0x08] [0x00, 0x01] (by decide)

/-- C18: on any byte sequence, no two distinct prefix rules of the table both hit, the
two offset rules do not both hit, and at most two rules of the table hit. -/
theorem hits_at_most_two (d : List UInt8) :
    (∀ e₁ e₂ : exactSig, sniffSig.ofExact e₁ ∈ sniffSignatures →
        sniffSig.ofExact e₂ ∈ sniffSignatures → e₁ ≠ e₂ →
        ¬ ((sniffSig.ofExact e₁).hit d = true ∧ (sniffSig.ofExact e₂).hit d = true)) ∧
    (∀ o₁ o₂ : offsetSig, sniffSig.ofOffset o₁ ∈ sniffSignatures →
        sniffSig.ofOffset o₂ ∈ sniffSignatures → o₁ ≠ o₂ →
        ¬ ((sniffSig.ofOffset o₁).hit d = true ∧ (sniffSig.ofOffset o₂).hit d = true)) ∧
    (sniffSignatures.filter fun s => s.hit d).length ≤ 2 := by
  refine ⟨fun e₁ e₂ h₁ h₂ hne => ?_, fun o₁ o₂ h₁ h₂ hne => ?_, ?_⟩
  · rw [table_hit_iff _ h₁, table_hit_iff _ h₂]
    exact table_not_both _ _ h₁ h₂ (fun h => hne (sniffSig.ofExact.inj h)) rfl d
  · rw [table_hit_iff _ h₁, table_hit_iff _ h₂]
    refine table_not_both _ _ h₁ h₂ (fun h => hne (sniffSig.ofOffset.inj h)) ?_ d
    rw [((table_kinds _ h₁).2 rfl).1, ((table_kinds _ h₂).2 rfl).1]
  · rw [← table_split, List.filter_append, List.length_append]
    have h1 := hits_le_one (sniffSignatures.take 9) 0 d (List.take_sublist _ _)
      table_take_offsets
    have h2 := hits_le_one (sniffSignatures.drop 9) 257 d (List.drop_sublist _ _)
      table_drop_offsets
    omega

/-- C19: `Detect` only depends on the first 265 bytes of its input.  For every byte
sequence `b` longer than 265 bytes, `Detect b = Detect (b[:265])`; 265 is the largest
`offset + len(sig)` of the table and lies below the 512-byte sniff window. -/
theorem Detect_take_265 (b : List UInt8) (h : b.length > 265) :
    sliceTo b 265 = some (b.take 265) ∧ Detect b = Detect (b.take 265) ∧
    (∀ s ∈ sniffSignatures, s.offset + len s.sig ≤ 265) ∧
    (∃ s ∈ sniffSignatures, s.offset + len s.sig = 265) ∧ (265 : Int) < sniffLen := by
  refine ⟨?_, ?_, fun s hs => (table_offsets s hs).2.2.1, by decide, by decide⟩
  · have hb : (0 : Int) ≤ 265 ∧ (265 : Int) ≤ len b := ⟨by omega, by simp only [len]; omega⟩
    simp only [sliceTo, if_pos hb]
    rfl
  rw [Detect_eq_loop, Detect_eq_loop, List.take_take]
  refine loop_congr _ _ _ fun s hs => ?_
  have hr := table_inRange s hs
  have h265 := (table_offsets s hs).2.2.1
  rw [match_take s b 512 hr (by omega)]
  exact (match_take s b (min 512 265) hr (by simpa using h265)).symm

/-- Witness for C19: 300 zero bytes. -/
theorem Detect_take_265_witness :
    Detect (List.replicate 300 0) = Detect ((List.replicate 300 0).take 265) :=
  (Detect_take_265 (List.replicate 300 0)
    (by simp only [List.length_replicate]; decide)).2.1

/-- C20: the label mapping is injective on the ten named constants: for `m₁`, `m₂`
among `Zip`, `Rar`, `Gzip`, `Bzip`, `Bzip2`, `Tar`, `PDF`, `Xz`, `Lz4`, `OctetStream`,
`m₁.String = m₂.String` implies `m₁ = m₂`. -/
theorem String_injective (m₁ m₂ : MIME)
    (h₁ : m₁ = Zip ∨ m₁ = Rar ∨ m₁ = Gzip ∨ m₁ = Bzip ∨ m₁ = Bzip2 ∨ m₁ = Tar ∨ m₁ = PDF ∨
      m₁ = Xz ∨ m₁ = Lz4 ∨ m₁ = OctetStream)
    (h₂ : m₂ = Zip ∨ m₂ = Rar ∨ m₂ = Gzip ∨ m₂ = Bzip ∨ m₂ = Bzip2 ∨ m₂ = Tar ∨ m₂ = PDF ∨
      m₂ = Xz ∨ m₂ = Lz4 ∨ m₂ = OctetStream)
    (h : m₁.String = m₂.String) : m₁ = m₂ := by
  rcases h₁ with rfl | rfl | rfl | rfl | rfl | rfl | rfl | rfl | rfl | rfl <;>
    rcases h₂ with rfl | rfl | rfl | rfl | rfl | rfl | rfl | rfl | rfl | rfl <;>
    first
      | rfl
      | exact absurd h (by decide)

/-- Witness for C20: the value 7 carries the label of `PDF`, so it is `PDF`. -/
theorem String_injective_witness : (⟨7⟩ : MIME) = PDF :=
  String_injective ⟨7⟩ PDF (by decide) (by decide) (by decide)

end Mime
